import Mathlib

/-!
Verification of the ectf-2025 decoder's cryptographic core against its
natural-language specification.  The definitions below are shallow
embeddings of the Rust sources under `src/decoder/` (the live tree; the
`src/libectf` and `src/main` trees are stale snapshots of the same code).
Machine integers are modelled as `Nat` with explicit `2^64` bounds where
u64 overflow matters; fallible operations return `Option`/`Except`; the
AES block cipher and the RSA signature primitive (external crates,
declared out of scope by the specification) are abstracted as function
parameters, while SHA-256 and HMAC-SHA256 are implemented concretely.
-/

set_option maxRecDepth 100000

namespace Ectf

/-! ## Mask ladder — embedding of `src/decoder/libectf/src/masks.rs` -/

/-- `pub const MASKS: &[u8]` — the decoder's mask-width ladder. -/
def MASKS : List Nat :=
  [0, 2, 4, 6, 8, 10, 12, 14, 16, 18, 20, 22, 24, 26, 28, 30,
   32, 34, 36, 38, 40, 42, 44, 46, 48, 50, 52, 54, 56, 58, 60, 62]

/-- `u64` modulus. -/
def U64 : Nat := 2 ^ 64

/-- The inner widening loop of `characterize_range`: starting from
`mask_idx`, keep widening while the next mask level is still aligned at
`a` (`a & next_block_span == 0`) and still ends within `b`
(`a | next_block_span <= b`).  `fuel` bounds the number of widening
steps; `MASKS.length` is always enough since `mask_idx` is capped at
`MASKS.length - 1`. -/
def widen (a b : Nat) : Nat → Nat → Nat
  | mask_idx, 0 => mask_idx
  | mask_idx, fuel + 1 =>
    if mask_idx < MASKS.length - 1 ∧
        a &&& (2 ^ (MASKS.getD (mask_idx + 1) 0) - 1) = 0 ∧
        a ||| (2 ^ (MASKS.getD (mask_idx + 1) 0) - 1) ≤ b then
      widen a b (mask_idx + 1) fuel
    else
      mask_idx

/-- The outer loop of `characterize_range`.  One iteration per emitted
block; the cursor advances by `a := (a | block_span) + 1`, and the Rust
`wrapping_add` overflow exit (`a == 0` after the add) corresponds, for
`u64` inputs, to `(a ||| span) + 1 = 2^64`.  `fuel` bounds the number of
iterations; since the cursor strictly increases, `b + 1 - a` iterations
always suffice. -/
def charAux (b : Nat) : Nat → Nat → List (Nat × Nat)
  | 0, _ => []
  | fuel + 1, a =>
    if a ≤ b then
      if (a ||| (2 ^ (MASKS.getD (widen a b 0 MASKS.length) 0) - 1)) + 1 = U64 then
        [(a, widen a b 0 MASKS.length)]
      else
        (a, widen a b 0 MASKS.length) ::
          charAux b fuel ((a ||| (2 ^ (MASKS.getD (widen a b 0 MASKS.length) 0) - 1)) + 1)
    else
      []

/-- `characterize_range(a, b)` — turn a range of timestamps into a list
of bitranges `(start_timestamp, mask_idx)`. -/
def characterize_range (a b : Nat) : List (Nat × Nat) :=
  charAux b (b + 1 - a) a

/-- The membership test used by `key_for_frame`:
`(start_timestamp ^ t) >> MASKS[mask_idx] == 0`. -/
def coversB (blk : Nat × Nat) (t : Nat) : Bool :=
  (blk.1 ^^^ t) >>> (MASKS.getD blk.2 0) == 0

/-! ## SHA-256 and HMAC-SHA256

The `sha2`/`hmac` crates are external primitives, out of scope for the
specification; they are implemented here concretely (FIPS 180-4 /
RFC 2104), operating on lists of bytes (`Nat`s below 256). -/

/-- Truncation to a 32-bit word. -/
def w32 (x : Nat) : Nat := x % 4294967296

/-- 32-bit right rotation. -/
def rotr32 (n x : Nat) : Nat := (x >>> n) ||| w32 (x <<< (32 - n))

def smallSigma0 (x : Nat) : Nat := rotr32 7 x ^^^ rotr32 18 x ^^^ (x >>> 3)
def smallSigma1 (x : Nat) : Nat := rotr32 17 x ^^^ rotr32 19 x ^^^ (x >>> 10)
def bigSigma0 (x : Nat) : Nat := rotr32 2 x ^^^ rotr32 13 x ^^^ rotr32 22 x
def bigSigma1 (x : Nat) : Nat := rotr32 6 x ^^^ rotr32 11 x ^^^ rotr32 25 x
def chf (x y z : Nat) : Nat := (x &&& y) ^^^ ((x ^^^ 4294967295) &&& z)
def maj (x y z : Nat) : Nat := (x &&& y) ^^^ (x &&& z) ^^^ (y &&& z)

/-- SHA-256 round constants. -/
def K256 : List Nat :=
  [1116352408, 1899447441, 3049323471, 3921009573, 961987163, 1508970993,
   2453635748, 2870763221, 3624381080, 310598401, 607225278, 1426881987,
   1925078388, 2162078206, 2614888103, 3248222580, 3835390401, 4022224774,
   264347078, 604807628, 770255983, 1249150122, 1555081692, 1996064986,
   2554220882, 2821834349, 2952996808, 3210313671, 3336571891, 3584528711,
   113926993, 338241895, 666307205, 773529912, 1294757372, 1396182291,
   1695183700, 1986661051, 2177026350, 2456956037, 2730485921, 2820302411,
   3259730800, 3345764771, 3516065817, 3600352804, 4094571909, 275423344,
   430227734, 506948616, 659060556, 883997877, 958139571, 1322822218,
   1537002063, 1747873779, 1955562222, 2024104815, 2227730452, 2361852424,
   2428436474, 2756734187, 3204031479, 3329325298]

/-- SHA-256 initial state. -/
def H256 : List Nat :=
  [1779033703, 3144134277, 1013904242, 2773480762,
   1359893119, 2600822924, 528734635, 1541459225]

/-- Big-endian byte encoding of `n` on `k` bytes. -/
def beBytes (k n : Nat) : List Nat :=
  (List.range k).map fun i => n / 2 ^ (8 * (k - 1 - i)) % 256

/-- Group a byte list into big-endian 32-bit words. -/
def bytesToWords : List Nat → List Nat
  | b0 :: b1 :: b2 :: b3 :: rest => (((b0 * 256 + b1) * 256 + b2) * 256 + b3) :: bytesToWords rest
  | _ => []

/-- FIPS 180-4 message padding. -/
def sha256pad (msg : List Nat) : List Nat :=
  let L := msg.length
  let z := (64 + 55 - L % 64) % 64
  msg ++ [0x80] ++ List.replicate z 0 ++ beBytes 8 (8 * L)

/-- Extend 16 message-schedule words to 64. -/
def schedule (w16 : List Nat) : List Nat :=
  (List.range 48).foldl
    (fun w _ =>
      let n := w.length
      w ++ [w32 (smallSigma1 (w.getD (n - 2) 0) + w.getD (n - 7) 0 +
                 smallSigma0 (w.getD (n - 15) 0) + w.getD (n - 16) 0)])
    w16

/-- One SHA-256 round. -/
def compressStep (st : List Nat) (kw : Nat × Nat) : List Nat :=
  match st with
  | [a, b, c, d, e, f, g, h] =>
    let t1 := w32 (h + bigSigma1 e + chf e f g + kw.1 + kw.2)
    let t2 := w32 (bigSigma0 a + maj a b c)
    [w32 (t1 + t2), a, b, c, w32 (d + t1), e, f, g]
  | _ => st

/-- SHA-256 compression of one 16-word block into the state. -/
def compress (st block : List Nat) : List Nat :=
  let st' := (K256.zip (schedule block)).foldl compressStep st
  (st.zip st').map fun p => w32 (p.1 + p.2)

/-- Iterate the compression over `n` 16-word blocks. -/
def sha256iter : Nat → List Nat → List Nat → List Nat
  | 0, st, _ => st
  | n + 1, st, words => sha256iter n (compress st (words.take 16)) (words.drop 16)

/-- SHA-256 of a byte list, as a 32-byte list. -/
def sha256 (msg : List Nat) : List Nat :=
  let words := bytesToWords (sha256pad msg)
  (sha256iter (words.length / 16) H256 words).foldr (fun w acc => beBytes 4 w ++ acc) []

/-- HMAC-SHA256 (RFC 2104). -/
def hmacSha256 (key msg : List Nat) : List Nat :=
  let k0 := if 64 < key.length then sha256 key else key
  let kpad := k0 ++ List.replicate (64 - k0.length) 0
  sha256 ((kpad.map fun b => b ^^^ 0x5c) ++
          sha256 ((kpad.map fun b => b ^^^ 0x36) ++ msg))

/-! ## Key derivation — embedding of `src/decoder/libectf/src/key.rs` -/

/-- `pub const KEY_SIZE_BYTES: usize = 16` — keys are 16 bytes. -/
def KEY_SIZE_BYTES : Nat := 16

/-- Little-endian byte encoding of `n` on `k` bytes (`to_le_bytes`). -/
def leBytes (k n : Nat) : List Nat :=
  (List.range k).map fun i => n / 2 ^ (8 * i) % 256

namespace Key

/-- `Key::for_device` — HMAC-SHA256 keyed with the secrets over the
little-endian device id, truncated to `KEY_SIZE_BYTES`. -/
def for_device (device_id : Nat) (secrets : List Nat) : List Nat :=
  (hmacSha256 secrets (leBytes 4 device_id)).take KEY_SIZE_BYTES

/-- `Key::for_bitrange`. -/
def for_bitrange (start_timestamp mask_idx channel : Nat) (secrets : List Nat) : List Nat :=
  (hmacSha256 secrets
    (leBytes 8 start_timestamp ++ leBytes 1 mask_idx ++ leBytes 4 channel)).take KEY_SIZE_BYTES

/-- `Key::for_frame`. -/
def for_frame (timestamp channel : Nat) (secrets : List Nat) : List Nat :=
  (hmacSha256 secrets (leBytes 8 timestamp ++ leBytes 4 channel)).take KEY_SIZE_BYTES

end Key

/-- The AES-128 block cipher of the `aes` crate (`Key::cipher`,
`Cipher::encrypt`, `Cipher::decrypt`), abstracted: an out-of-scope
standard primitive.  `enc`/`dec` take the 16-byte key and the data. -/
structure BlockCipher where
  enc : List Nat → List Nat → List Nat
  dec : List Nat → List Nat → List Nat

/-! ## Frame packets — embedding of `src/decoder/libectf/src/frame.rs` -/

/-- `pub const FRAME_SIZE: usize = 64`. -/
def FRAME_SIZE : Nat := 64

/-- `pub const NUM_ENCRYPTED_KEYS: usize = MASKS.len()`. -/
def NUM_ENCRYPTED_KEYS : Nat := MASKS.length

structure EncodedFramePacketHeader where
  timestamp : Nat
  channel : Nat
  signature : List Nat
  frame : List Nat
  deriving Repr, DecidableEq

structure EncodedFramePacket where
  header : EncodedFramePacketHeader
  keys : List (List Nat)
  deriving Repr, DecidableEq

/-- `Frame::encode` — sign the plaintext frame, encrypt it under the
frame key, and wrap the frame key once per mask level under the
bit-range key of the block containing `timestamp`.  The RSA signing
operation (`SigningKey::sign`) is abstracted as `sign`; the u64
expression `timestamp & !((1 << mask) - 1)` is `timestamp &&& (2^64 -
2^mask)` over `Nat`. -/
def Frame.encode (C : BlockCipher) (sign : List Nat → List Nat) (frame : List Nat)
    (timestamp channel : Nat) (secrets : List Nat) : EncodedFramePacket :=
  let frame_key := Key.for_frame timestamp channel secrets
  let keys := (List.range NUM_ENCRYPTED_KEYS).map fun mask_idx =>
    let mask := MASKS.getD mask_idx 0
    C.enc (Key.for_bitrange (timestamp &&& (U64 - 2 ^ mask)) mask_idx channel secrets) frame_key
  { header :=
      { channel := channel
        timestamp := timestamp
        signature := sign frame
        frame := C.enc frame_key frame }
    keys := keys }

/-! ## Subscriptions — embedding of `src/decoder/libectf/src/subscription.rs` -/

structure SubscriptionDataHeader where
  start_timestamp : Nat
  end_timestamp : Nat
  channel : Nat
  mac_hash : List Nat
  deriving Repr, DecidableEq

structure EncodedSubscriptionKey where
  key : List Nat
  deriving Repr, DecidableEq

structure SubscriptionData where
  header : SubscriptionDataHeader
  keys : List EncodedSubscriptionKey
  deriving Repr, DecidableEq

/-- `ArchivedSubscriptionDataHeader::contains_frame`. -/
def contains_frame (hdr : SubscriptionDataHeader) (frame : EncodedFramePacketHeader) : Bool :=
  hdr.channel == frame.channel &&
  hdr.start_timestamp ≤ frame.timestamp &&
  hdr.end_timestamp ≥ frame.timestamp

/-- The scan inside `key_for_frame`: walk the packet's key list zipped
against the range decomposition and return the first key whose block
passes the membership test `(start_timestamp ^ t) >> MASKS[mask_idx] == 0`. -/
def findKey (t : Nat) :
    List (EncodedSubscriptionKey × (Nat × Nat)) → Option (EncodedSubscriptionKey × Nat)
  | [] => none
  | (key, blk) :: rest => if coversB blk t then some (key, blk.2) else findKey t rest

/-- `ArchivedSubscriptionDataHeader::key_for_frame`. -/
def key_for_frame (hdr : SubscriptionDataHeader) (frameHdr : EncodedFramePacketHeader)
    (keys : List EncodedSubscriptionKey) : Option (EncodedSubscriptionKey × Nat) :=
  if contains_frame hdr frameHdr then
    findKey frameHdr.timestamp
      (keys.zip (characterize_range hdr.start_timestamp hdr.end_timestamp))
  else
    none

/-- `<[u8; 8]>::copy_from_slice` — panics (`none`) unless the source
slice has exactly the destination's length. -/
def copyFromSlice (dst src : List Nat) : Option (List Nat) :=
  if src.length = dst.length then some src else none

/-- The key loop of `ArchivedSubscriptionData::authenticate`: for each
key (zipped against the range decomposition), copy the 16-byte key into
the 8-byte scratch buffer `buf` (`buf.copy_from_slice(&k.key.0)`),
decrypt `buf`, and then hash `k.key.0` — the (still encrypted) packet
bytes, not the decrypted buffer.  `none` models the `copy_from_slice`
length-mismatch panic; `acc` accumulates the hasher input. -/
def authLoop (C : BlockCipher) (device_key : List Nat) :
    List (EncodedSubscriptionKey × (Nat × Nat)) → List Nat → Option (List Nat)
  | [], acc => some acc
  | (k, _) :: rest, acc =>
    match copyFromSlice (List.replicate 8 0) k.key with
    | none => none
    | some buf =>
      let _ := C.dec device_key buf
      authLoop C device_key rest (acc ++ k.key)

/-- `ArchivedSubscriptionData::authenticate` — `none` models a panic. -/
def authenticate (C : BlockCipher) (sub : SubscriptionData) (device_key : List Nat) :
    Option Bool :=
  let hdrBytes := leBytes 8 sub.header.start_timestamp ++ leBytes 8 sub.header.end_timestamp ++
    leBytes 4 sub.header.channel
  match authLoop C device_key
      (sub.keys.zip
        (characterize_range sub.header.start_timestamp sub.header.end_timestamp)) hdrBytes with
  | none => none
  | some bytes => some (sha256 bytes == sub.header.mac_hash)

/-- `SubscriptionData::generate` — decompose the range, derive one
bit-range key per block, hash the header fields followed by the
plaintext keys, then encrypt each key under the device key when a
device id is given. -/
def SubscriptionData.generate (C : BlockCipher) (secrets : List Nat)
    (start end_ channel : Nat) (device_id : Option Nat) : SubscriptionData :=
  let plainKeys := (characterize_range start end_).map fun blk =>
    Key.for_bitrange blk.1 blk.2 channel secrets
  let macBytes := leBytes 8 start ++ leBytes 8 end_ ++ leBytes 4 channel ++
    plainKeys.foldr (· ++ ·) []
  let keys := plainKeys.map fun key =>
    { key :=
        match device_id with
        | some d => C.enc (Key.for_device d secrets) key
        | none => key }
  { header :=
      { channel := channel
        start_timestamp := start
        end_timestamp := end_
        mac_hash := sha256 macBytes }
    keys := keys }

/-! ## Decode pipeline — embedding of `src/decoder/main/src/decode.rs` -/

/-- A subscription as materialised from flash
(`flash::StaticSubscription`): a header and a key list whose key bytes
are stored decrypted. -/
structure StoredSubscription where
  header : SubscriptionDataHeader
  keys : List EncodedSubscriptionKey
  deriving Repr, DecidableEq

/-- The lookup loop of `decode_frame`: scan the flash subscriptions in
order and keep the first `key_for_frame` hit. -/
def findSubscriptionKey (frameHdr : EncodedFramePacketHeader) :
    List StoredSubscription → Option (EncodedSubscriptionKey × Nat)
  | [] => none
  | s :: rest =>
    match key_for_frame s.header frameHdr s.keys with
    | some k => some k
    | none => findSubscriptionKey frameHdr rest

/-- `decode_frame` — returns the handler's `Result` together with the
final value of `most_recent_timestamp` (a `&mut Option<u64>` in the
source; error paths return early and leave it untouched).

The initial size check (`packet.len() != size_of::<ArchivedEncodedFramePacket>()`)
is rendered structurally: the buffer parses as an
`ArchivedEncodedFramePacket` of the fixed layout exactly when the frame
is `FRAME_SIZE` bytes, the signature 64 bytes and there are
`NUM_ENCRYPTED_KEYS` wrapped keys.  `Signature::try_from` then always
succeeds on the 64-byte signature field, so its error arm is
unreachable.  The DMA waits (`dma_poll_for_ack` loops) only sequence
the transfer and are modelled separately (`dma_poll_for_ack` below).
`verify` abstracts `VerifyingKey::verify` (`true` = `Ok`); the
channel-0 path uses the firmware constant `CHANNEL_0_KEYS` with the
dummy header spanning `[0, u64::MAX]`. -/
def decode_frame (C : BlockCipher) (verify : List Nat → List Nat → Bool)
    (channel0Keys : List EncodedSubscriptionKey) (subs : List StoredSubscription)
    (pkt : EncodedFramePacket) (most_recent_timestamp : Option Nat) :
    Except String (List Nat) × Option Nat :=
  if pkt.header.frame.length ≠ FRAME_SIZE ∨ pkt.header.signature.length ≠ 64 ∨
      pkt.keys.length ≠ NUM_ENCRYPTED_KEYS then
    (Except.error "Unexpected frame packet size", most_recent_timestamp)
  else
    let key? :=
      if pkt.header.channel ≠ 0 then
        findSubscriptionKey pkt.header subs
      else
        key_for_frame
          { start_timestamp := 0, end_timestamp := U64 - 1, channel := 0
            mac_hash := List.replicate 32 0 }
          pkt.header channel0Keys
    match key? with
    | none => (Except.error "No subscription for frame", most_recent_timestamp)
    | some (key, mask_idx) =>
      let frame_key := C.dec key.key (pkt.keys.getD mask_idx [])
      let f := C.dec frame_key pkt.header.frame
      if (most_recent_timestamp.map fun t => decide (pkt.header.timestamp ≤ t)).getD false then
        (Except.error "Frame is from the past", most_recent_timestamp)
      else if verify f pkt.header.signature = false then
        (Except.error "Frame validation failed", most_recent_timestamp)
      else
        (Except.ok f, some pkt.header.timestamp)

/-! ## Subscription store — embedding of `src/decoder/main/src/flash.rs` -/

/-- `Flash::addr_before_aligned` — the address of the u32 length slot
immediately preceding the next 16-byte-aligned chunk
(`((current + 3) & !(ALIGNMENT - 1)) + ALIGNMENT - 4` over u32). -/
def addr_before_aligned (current : Nat) : Nat :=
  ((current + 3) &&& (2 ^ 32 - 16)) + 16 - 4

/-- The flash store: the subscription records in log order together
with the in-RAM index materialised from them, the next length-slot
address, and the end of the reserved region
(`START_ADDR + NUM_PAGES * FLASH_PAGE_SIZE`; the page size is a vendor
HAL constant outside `src/`). -/
structure Flash where
  entries : List (Nat × StoredSubscription)
  subscriptions : List StoredSubscription
  next_entry_addr : Nat
  limit : Nat
  deriving Repr, DecidableEq

/-- The serialized byte length of a subscription packet: a 52-byte
header (`u64 + u64 + u32 + [u8; 32]`) plus 16 bytes per key. -/
def subPacketLen (sub : StoredSubscription) : Nat := 52 + 16 * sub.keys.length

/-- `Flash::add_subscription` — check the record fits
(`check_addr(next_entry_addr + 4 + len)`), append the record, advance
`next_entry_addr` past the 16-byte-padded body, and push onto the
in-RAM index. -/
def Flash.add_subscription (fl : Flash) (sub : StoredSubscription) : Except String Flash :=
  let len := subPacketLen sub
  if fl.next_entry_addr + 4 + len > fl.limit then
    Except.error "InvalidAddress"
  else
    Except.ok
      { fl with
        entries := fl.entries ++ [(len, sub)]
        subscriptions := fl.subscriptions ++ [sub]
        next_entry_addr := addr_before_aligned (fl.next_entry_addr + 4 + len) }

/-! ## Subscribe handler — embedding of `src/decoder/main/src/subscribe.rs` -/

/-- The MAC computed by `add_subscription`: SHA-256 over the header
fields followed by the keys decrypted under the decoder key. -/
def computeSubscriptionMac (C : BlockCipher) (decoder_key : List Nat)
    (sub : SubscriptionData) : List Nat :=
  sha256 (leBytes 8 sub.header.start_timestamp ++ leBytes 8 sub.header.end_timestamp ++
    leBytes 4 sub.header.channel ++
    (sub.keys.map fun k => C.dec decoder_key k.key).foldr (· ++ ·) [])

/-- `add_subscription` — refuse channel 0, decrypt each key in place
and hash it, compare the MAC, and only then write the packet (with its
now decrypted keys) to flash.  Returns the handler's `Result` together
with the final flash state; the DMA waits are sequencing only. -/
def add_subscription (C : BlockCipher) (decoder_key : List Nat)
    (sub : SubscriptionData) (fl : Flash) : Except String Unit × Flash :=
  if sub.header.channel = 0 then
    (Except.error "Cannot subscribe to channel 0", fl)
  else if computeSubscriptionMac C decoder_key sub ≠ sub.header.mac_hash then
    (Except.error "Authentication Failed", fl)
  else
    match fl.add_subscription
        { header := sub.header
          keys := sub.keys.map fun k => { key := C.dec decoder_key k.key } } with
    | Except.error e => (Except.error ("Flash error: " ++ e), fl)
    | Except.ok fl' => (Except.ok (), fl')

/-! ## UART body transfer — embedding of `src/decoder/main/src/uart/body_rw.rs` -/

/-- `BodyRW::CHUNK_SIZE`. -/
def CHUNK_SIZE : Nat := 256

/-- The receive-side state of `BodyRW` used by `dma_poll_for_ack`:
the armed transfer length and the byte count last acknowledged. -/
structure BodyRWState where
  dma_read_length : Nat
  last_ack_write : Nat
  deriving Repr, DecidableEq

/-- `BodyRW::dma_poll_for_ack` — one poll of the DMA residue counter
`cnt`.  Computes `bytes_read = dma_read_length - cnt` and writes an ACK
exactly when `bytes_read` is a chunk boundary (multiple of 256, or the
whole length) that differs from the last acknowledged count.  Returns
`(bytes_read, acked, new state)`. -/
def dma_poll_for_ack (st : BodyRWState) (cnt : Nat) : Nat × Bool × BodyRWState :=
  let bytes_read := st.dma_read_length - cnt
  if (bytes_read % CHUNK_SIZE = 0 ∨ bytes_read = st.dma_read_length) ∧
      bytes_read ≠ st.last_ack_write then
    (bytes_read, true, { st with last_ack_write := bytes_read })
  else
    (bytes_read, false, st)

/-- Run a sequence of polls, given the successive observed values of
the DMA `cnt` register; returns the `bytes_read` values for which an
ACK was written, in order. -/
def pollSeq (st : BodyRWState) : List Nat → List Nat
  | [] => []
  | cnt :: rest =>
    let r := dma_poll_for_ack st cnt
    if r.2.1 then r.1 :: pollSeq r.2.2 rest else pollSeq r.2.2 rest

/-- The chunk boundaries of a body of length `L`: every complete
256-byte boundary, and `L` itself for the final partial chunk. -/
def boundaries (L : Nat) : List Nat :=
  ((List.range (L / CHUNK_SIZE)).map fun i => CHUNK_SIZE * (i + 1)) ++
    (if L % CHUNK_SIZE = 0 then [] else [L])

/-- Specification helper for the ACK pacing: keep the elements that
differ from the most recently kept one (initially `last`), mirroring
the `last_ack_write` deduplication. -/
def dedupFrom (last : Nat) : List Nat → List Nat
  | [] => []
  | x :: xs => if x ≠ last then x :: dedupFrom x xs else dedupFrom last xs

/-- Order on the `most_recent_timestamp` option: `none` precedes
everything; timestamps compare numerically. -/
def optLe : Option Nat → Option Nat → Prop
  | none, _ => True
  | some _, none => False
  | some x, some y => x ≤ y

/-- Fold `decode_frame` over a sequence of incoming frame packets,
tracking `most_recent_timestamp`. -/
def decodeRun (C : BlockCipher) (verify : List Nat → List Nat → Bool)
    (channel0Keys : List EncodedSubscriptionKey) (subs : List StoredSubscription) :
    List EncodedFramePacket → Option Nat → Option Nat
  | [], mrt => mrt
  | pkt :: rest, mrt =>
    decodeRun C verify channel0Keys subs rest
      (decode_frame C verify channel0Keys subs pkt mrt).2

/-! ## Specification helpers for the block-count bound

For the decoder's ladder `MASKS[k] = 2*k` (`k < 32`), so a block at
index `k` spans `4^k` timestamps. -/

/-- The largest mask index whose block still fits in `n` remaining
timestamps. -/
def uFit (n : Nat) : Nat := Nat.findGreatest (fun k => 4 ^ k ≤ n) 31

/-- The largest mask index at whose width the cursor `a` is aligned. -/
def vAlign (a : Nat) : Nat := Nat.findGreatest (fun k => a % 4 ^ k = 0) 31

/-- Remaining blocks needed at level `v` before the cursor's base-4
digit at that level wraps to zero. -/
def digAsc (a v : Nat) : Nat := 4 - a / 4 ^ v % 4

/-- Decreasing measure bounding the number of blocks
`characterize_range` still emits from cursor `a`. -/
def mu (a b : Nat) : Nat :=
  if vAlign a < uFit (b + 1 - a) then
    6 * uFit (b + 1 - a) - 3 * vAlign a + digAsc a (vAlign a) + 3
  else
    3 * uFit (b + 1 - a) + (b + 1 - a) / 4 ^ uFit (b + 1 - a)

/-!
Theorems.

Sanity checks of the embedded definitions on concrete inputs, the
supporting lemmas, and one theorem per claim.
-/

example : characterize_range 0 7 = [(0, 1), (4, 1)] := by decide
example : characterize_range 5 5 = [(5, 0)] := by decide
example : characterize_range 1 6 =
    [(1, 0), (2, 0), (3, 0), (4, 0), (5, 0), (6, 0)] := by decide

-- FIPS 180-4 / RFC 4231 test vectors for the hash primitives.
example : sha256 [0x61, 0x62, 0x63] =
    [0xba, 0x78, 0x16, 0xbf, 0x8f, 0x01, 0xcf, 0xea, 0x41, 0x41, 0x40, 0xde, 0x5d, 0xae, 0x22,
     0x23, 0xb0, 0x03, 0x61, 0xa3, 0x96, 0x17, 0x7a, 0x9c, 0xb4, 0x10, 0xff, 0x61, 0xf2, 0x00,
     0x15, 0xad] := by decide
example : hmacSha256 [0x4a, 0x65, 0x66, 0x65]
    [0x77, 0x68, 0x61, 0x74, 0x20, 0x64, 0x6f, 0x20, 0x79, 0x61, 0x20, 0x77, 0x61, 0x6e, 0x74,
     0x20, 0x66, 0x6f, 0x72, 0x20, 0x6e, 0x6f, 0x74, 0x68, 0x69, 0x6e, 0x67, 0x3f] =
    [0x5b, 0xdc, 0xc1, 0x46, 0xbf, 0x60, 0x75, 0x4e, 0x6a, 0x04, 0x24, 0x26, 0x08, 0x95, 0x75,
     0xc7, 0x5a, 0x00, 0x3f, 0x08, 0x9d, 0x27, 0x39, 0x83, 0x9d, 0xec, 0x58, 0xb9, 0x64, 0xec,
     0x38, 0x43] := by decide

/-! ### Bit-arithmetic bridges -/

theorem MASKS_length : MASKS.length = 32 := by decide

theorem xor_shiftRight (x y n : Nat) : (x ^^^ y) >>> n = x >>> n ^^^ y >>> n := by
  apply Nat.eq_of_testBit_eq
  intro i
  simp [Nat.testBit_shiftRight, Nat.testBit_xor]

theorem or_low_eq_add {a : Nat} (n : Nat) (h : 2 ^ n ∣ a) :
    a ||| (2 ^ n - 1) = a + (2 ^ n - 1) := by
  obtain ⟨q, rfl⟩ := h
  exact (Nat.mul_add_lt_is_or (Nat.sub_lt (Nat.two_pow_pos n) Nat.one_pos) q).symm

theorem low_or_eq (a n : Nat) : a % 2 ^ n ||| (2 ^ n - 1) = 2 ^ n - 1 := by
  apply Nat.eq_of_testBit_eq
  intro i
  by_cases hi : i < n
  · simp [hi]
  · have h1 : a % 2 ^ n < 2 ^ i :=
      lt_of_lt_of_le (Nat.mod_lt _ (Nat.two_pow_pos n))
        (Nat.pow_le_pow_right (by omega) (by omega))
    simp [hi, Nat.testBit_lt_two_pow h1]

theorem or_low_general (a n : Nat) :
    a ||| (2 ^ n - 1) = 2 ^ n * (a / 2 ^ n) + (2 ^ n - 1) := by
  conv_lhs => rw [← Nat.div_add_mod a (2 ^ n)]
  rw [Nat.mul_add_lt_is_or (Nat.mod_lt _ (Nat.two_pow_pos n)) _, Nat.or_assoc, low_or_eq,
    ← Nat.mul_add_lt_is_or (Nat.sub_lt (Nat.two_pow_pos n) Nat.one_pos)]

theorem div_pow_eq_iff {t0 : Nat} (n : Nat) (h : 2 ^ n ∣ t0) (t : Nat) :
    t0 / 2 ^ n = t / 2 ^ n ↔ t0 ≤ t ∧ t < t0 + 2 ^ n := by
  obtain ⟨q, rfl⟩ := h
  have hpos : 0 < 2 ^ n := Nat.two_pow_pos n
  rw [Nat.mul_div_cancel_left _ hpos]
  constructor
  · intro hq
    have hmod := Nat.div_add_mod t (2 ^ n)
    have hlt := Nat.mod_lt t hpos
    rw [← hq] at hmod
    omega
  · intro h'
    have hub : t / 2 ^ n < q + 1 := by
      rw [Nat.div_lt_iff_lt_mul hpos]
      calc t < 2 ^ n * q + 2 ^ n := h'.2
        _ = (q + 1) * 2 ^ n := by ring
    have hlb : q ≤ t / 2 ^ n := by
      rw [Nat.le_div_iff_mul_le hpos]
      calc q * 2 ^ n = 2 ^ n * q := by ring
        _ ≤ t := h'.1
    omega

theorem coversB_iff {t0 : Nat} (m : Nat) (h : 2 ^ (MASKS.getD m 0) ∣ t0) (t : Nat) :
    coversB (t0, m) t = true ↔ t0 ≤ t ∧ t < t0 + 2 ^ (MASKS.getD m 0) := by
  rw [coversB, beq_iff_eq, xor_shiftRight, Nat.xor_eq_zero,
    Nat.shiftRight_eq_div_pow, Nat.shiftRight_eq_div_pow]
  exact div_pow_eq_iff _ h t

/-! ### The widening loop -/

theorem MASKS_getD_zero : MASKS.getD 0 0 = 0 := rfl

/-- Invariant of the widening loop: starting from an index at which the
cursor is aligned and the block fits, the chosen index is in range,
aligned, and fits. -/
theorem widen_spec (a b : Nat) :
    ∀ fuel idx, idx < MASKS.length → 2 ^ (MASKS.getD idx 0) ∣ a →
      a ||| (2 ^ (MASKS.getD idx 0) - 1) ≤ b →
      widen a b idx fuel < MASKS.length ∧
        2 ^ (MASKS.getD (widen a b idx fuel) 0) ∣ a ∧
        a ||| (2 ^ (MASKS.getD (widen a b idx fuel) 0) - 1) ≤ b := by
  intro fuel
  induction fuel with
  | zero =>
    intro idx h1 h2 h3
    rw [widen]
    exact ⟨h1, h2, h3⟩
  | succ f ih =>
    intro idx h1 h2 h3
    rw [widen]
    by_cases hc : idx < MASKS.length - 1 ∧
        a &&& (2 ^ (MASKS.getD (idx + 1) 0) - 1) = 0 ∧
        a ||| (2 ^ (MASKS.getD (idx + 1) 0) - 1) ≤ b
    · rw [if_pos hc]
      refine ih (idx + 1) (by have := MASKS_length; omega) ?_ hc.2.2
      have := hc.2.1
      rw [Nat.and_pow_two_sub_one_eq_mod] at this
      exact Nat.dvd_of_mod_eq_zero this
    · rw [if_neg hc]
      exact ⟨h1, h2, h3⟩

/-! ### Exact coverage of `characterize_range` -/

/-- Main coverage invariant: from cursor `a`, with enough fuel, the
emitted blocks cover each `t ∈ [a, b]` exactly once and cover nothing
else. -/
theorem charAux_countP {b : Nat} (hbU : b < U64) :
    ∀ fuel a, b + 1 - a ≤ fuel → ∀ t,
      (charAux b fuel a).countP (fun blk => coversB blk t) =
        if a ≤ t ∧ t ≤ b then 1 else 0 := by
  intro fuel
  induction fuel with
  | zero =>
    intro a hf t
    have hnot : ¬(a ≤ t ∧ t ≤ b) := by omega
    simp [charAux, hnot]
  | succ f ih =>
    intro a hf t
    by_cases hab : a ≤ b
    · obtain ⟨hkl, hdvd, hfit⟩ := widen_spec a b MASKS.length 0
        (by rw [MASKS_length]; omega)
        (by rw [MASKS_getD_zero, pow_zero]; exact Nat.one_dvd a)
        (by rw [MASKS_getD_zero]; simpa using hab)
      set k := widen a b 0 MASKS.length with hkdef
      set w := MASKS.getD k 0 with hwdef
      have hpow : 0 < 2 ^ w := Nat.two_pow_pos w
      have hor : a ||| (2 ^ w - 1) = a + (2 ^ w - 1) := or_low_eq_add w hdvd
      have hfit' : a + (2 ^ w - 1) ≤ b := by rw [← hor]; exact hfit
      have hcov := coversB_iff k hdvd
      rw [← hwdef] at hcov
      rw [charAux, if_pos hab]
      by_cases hov : (a ||| (2 ^ w - 1)) + 1 = U64
      · rw [if_pos hov]
        rw [hor] at hov
        have hU : U64 = 2 ^ 64 := rfl
        have hbeq : b = a + (2 ^ w - 1) := by
          rw [hU] at hov hbU
          omega
        rw [List.countP_cons, List.countP_nil]
        by_cases hct : a ≤ t ∧ t ≤ b
        · have hc : coversB (a, k) t = true := (hcov t).2 ⟨hct.1, by omega⟩
          simp [hct, hc]
        · have hc : coversB (a, k) t = false := by
            rw [Bool.eq_false_iff]
            intro hcc
            have := (hcov t).1 hcc
            exact hct ⟨this.1, by omega⟩
          simp [hct, hc]
      · rw [if_neg hov]
        rw [List.countP_cons]
        have ha1 : a + (2 ^ w - 1) + 1 = a + 2 ^ w := by omega
        have hrec := ih ((a ||| (2 ^ w - 1)) + 1) (by rw [hor]; omega) t
        rw [hor, ha1] at hrec
        rw [hor, ha1, hrec]
        by_cases hc : coversB (a, k) t = true
        · have hint := (hcov t).1 hc
          have h1 : ¬(a + 2 ^ w ≤ t ∧ t ≤ b) := by omega
          have h2 : a ≤ t ∧ t ≤ b := ⟨hint.1, by omega⟩
          rw [if_neg h1, if_pos h2]
          simp [hc]
        · have hcf : coversB (a, k) t = false := by
            rw [Bool.eq_false_iff]; exact hc
          have hiff : (a + 2 ^ w ≤ t ∧ t ≤ b) ↔ (a ≤ t ∧ t ≤ b) := by
            constructor
            · intro h'; exact ⟨by omega, h'.2⟩
            · intro h'
              refine ⟨?_, h'.2⟩
              by_contra hlt
              push_neg at hlt
              exact hc ((hcov t).2 ⟨h'.1, by omega⟩)
          simp only [hcf, if_false, Bool.false_eq_true, Nat.add_zero]
          exact if_congr hiff rfl rfl
    · have hnot : ¬(a ≤ t ∧ t ≤ b) := by omega
      rw [charAux]
      simp [hab, hnot]

/-- Every emitted block has an in-range mask index, an aligned start at
or after the cursor, and ends within `b`. -/
theorem charAux_mem {b : Nat} :
    ∀ fuel a, ∀ blk ∈ charAux b fuel a,
      blk.2 < MASKS.length ∧ 2 ^ (MASKS.getD blk.2 0) ∣ blk.1 ∧ a ≤ blk.1 ∧
        blk.1 + (2 ^ (MASKS.getD blk.2 0) - 1) ≤ b := by
  intro fuel
  induction fuel with
  | zero =>
    intro a blk hblk
    simp [charAux] at hblk
  | succ f ih =>
    intro a blk hblk
    rw [charAux] at hblk
    by_cases hab : a ≤ b
    · rw [if_pos hab] at hblk
      obtain ⟨hkl, hdvd, hfit⟩ := widen_spec a b MASKS.length 0
        (by rw [MASKS_length]; omega)
        (by rw [MASKS_getD_zero, pow_zero]; exact Nat.one_dvd a)
        (by rw [MASKS_getD_zero]; simpa using hab)
      set k := widen a b 0 MASKS.length with hkdef
      set w := MASKS.getD k 0 with hwdef
      have hor : a ||| (2 ^ w - 1) = a + (2 ^ w - 1) := or_low_eq_add w hdvd
      have hfit' : a + (2 ^ w - 1) ≤ b := by rw [← hor]; exact hfit
      by_cases hov : (a ||| (2 ^ w - 1)) + 1 = U64
      · rw [if_pos hov, List.mem_singleton] at hblk
        subst hblk
        exact ⟨hkl, hdvd, le_refl a, hfit'⟩
      · rw [if_neg hov, List.mem_cons] at hblk
        rcases hblk with rfl | hblk
        · exact ⟨hkl, hdvd, le_refl a, hfit'⟩
        · have hrec := ih _ blk hblk
          refine ⟨hrec.1, hrec.2.1, ?_, hrec.2.2.2⟩
          have := hrec.2.2.1
          rw [hor] at this
          omega
    · rw [if_neg hab] at hblk
      simp at hblk

theorem characterize_range_countP {a b : Nat} (hbU : b < U64) (t : Nat) :
    (characterize_range a b).countP (fun blk => coversB blk t) =
      if a ≤ t ∧ t ≤ b then 1 else 0 :=
  charAux_countP hbU _ a (le_refl _) t

theorem characterize_range_mem {a b : Nat} (blk : Nat × Nat)
    (hblk : blk ∈ characterize_range a b) :
    blk.2 < MASKS.length ∧ 2 ^ (MASKS.getD blk.2 0) ∣ blk.1 ∧ a ≤ blk.1 ∧
      blk.1 + (2 ^ (MASKS.getD blk.2 0) - 1) ≤ b :=
  charAux_mem _ a blk hblk

/-- C2 (claim): exact cover over `[a, b]`. -/
theorem exact_cover (a b t : Nat) (hab : a ≤ b) (hb : b < 2 ^ 64) (hat : a ≤ t)
    (htb : t ≤ b) :
    (characterize_range a b).countP (fun blk => coversB blk t) = 1 := by
  rw [characterize_range_countP (show b < U64 from hb)]
  simp [hat, htb]

theorem exact_cover_witness :
    (characterize_range 3 10).countP (fun blk => coversB blk 7) = 1 :=
  exact_cover 3 10 7 (by decide) (by decide) (by decide) (by decide)

/-! ### Frame encode/decode round-trip -/

theorem zip_map_left {α β : Type} (f : α → β) :
    ∀ l : List α, (l.map f).zip l = l.map fun x => (f x, x)
  | [] => rfl
  | x :: xs => by simp [zip_map_left f xs]

/-- `findKey` over keys positionally paired with their blocks returns
the key of the first covering block. -/
theorem findKey_zip_map (keyfn : Nat × Nat → EncodedSubscriptionKey) (t : Nat) :
    ∀ blocks : List (Nat × Nat), (∃ b ∈ blocks, coversB b t = true) →
      ∃ blk, blk ∈ blocks ∧ coversB blk t = true ∧
        findKey t ((blocks.map keyfn).zip blocks) = some (keyfn blk, blk.2) := by
  intro blocks
  induction blocks with
  | nil =>
    intro h
    obtain ⟨b, hb, _⟩ := h
    simp at hb
  | cons x xs ih =>
    intro h
    by_cases hx : coversB x t = true
    · refine ⟨x, List.mem_cons_self x xs, hx, ?_⟩
      rw [List.map_cons, List.zip_cons_cons, findKey, if_pos hx]
    · obtain ⟨b, hb, hcov⟩ := h
      have hb' : b ∈ xs := by
        rcases List.mem_cons.mp hb with rfl | h'
        · exact absurd hcov hx
        · exact h'
      obtain ⟨blk, hmem, hcov', hfind⟩ := ih ⟨b, hb', hcov⟩
      refine ⟨blk, List.mem_cons_of_mem x hmem, hcov', ?_⟩
      rw [List.map_cons, List.zip_cons_cons, findKey, if_neg hx, hfind]

theorem range_map_getD {α : Type} (g : Nat → α) (d : α) {i n : Nat} (h : i < n) :
    ((List.range n).map g).getD i d = g i := by
  simp [List.getD_eq_getElem?_getD, List.getElem?_range h]

/-- `t & !((1 << m) - 1)` over u64 clears the low `m` bits:
numerically, rounding down to a multiple of `2^m`. -/
theorem and_high (t m : Nat) (ht : t < 2 ^ 64) (hm : m ≤ 64) :
    t &&& (2 ^ 64 - 2 ^ m) = 2 ^ m * (t / 2 ^ m) := by
  have hsplit : 2 ^ 64 - 2 ^ m = 2 ^ m * (2 ^ (64 - m) - 1) := by
    rw [Nat.mul_sub_left_distrib, Nat.mul_one, ← pow_add]
    congr 2
    omega
  apply Nat.eq_of_testBit_eq
  intro i
  rw [Nat.testBit_and, hsplit, Nat.testBit_mul_pow_two, Nat.testBit_mul_pow_two,
    Nat.testBit_two_pow_sub_one]
  rw [show t / 2 ^ m = t >>> m from (Nat.shiftRight_eq_div_pow t m).symm,
    Nat.testBit_shiftRight]
  by_cases him : m ≤ i
  · by_cases hi64 : i < 64
    · have h1 : i - m < 64 - m := by omega
      have h2 : m + (i - m) = i := by omega
      simp [him, h1, h2, Bool.and_comm]
    · have h2 : m + (i - m) = i := by omega
      have hbit : t.testBit i = false :=
        Nat.testBit_lt_two_pow (lt_of_lt_of_le ht (Nat.pow_le_pow_right (by omega) (by omega)))
      simp [him, h2, hbit, show ¬(i - m < 64 - m) by omega]
  · simp [him]

/-- Every entry of the mask ladder is at most 62 (also through the
`getD` default). -/
theorem MASKS_getD_le (i : Nat) : MASKS.getD i 0 ≤ 62 := by
  by_cases h : i < 32
  · interval_cases i <;> decide
  · rw [List.getD_eq_getElem?_getD]
    have : MASKS.length ≤ i := by rw [MASKS_length]; omega
    simp [List.getElem?_eq_none this]

/-- C1 (claim): frame encode/decode round-trip.  For any 64-byte frame,
in-range `(t, channel)` with a subscription generated for
`[start, end_]` on the same channel (keys in their decrypted, stored
form), the decode pipeline applied to `Frame::encode(t, channel, S)`
recovers exactly the original frame: `key_for_frame` selects a covering
block, the wrapped key at its mask index unwraps to the frame key, and
the frame ciphertext decrypts to the original frame.  The AES cipher
`C` and RSA signing (`sign`/`verify`) are abstract primitives,
hypothesised to invert/verify correctly. -/
theorem frame_decode_roundtrip
    (C : BlockCipher) (sign : List Nat → List Nat) (verify : List Nat → List Nat → Bool)
    (channel0Keys : List EncodedSubscriptionKey)
    (secrets frame : List Nat) (t channel start end_ device_id : Nat) (mrt : Option Nat)
    (hCinv : ∀ k x, C.dec k (C.enc k x) = x)
    (hClen : ∀ k x, (C.enc k x).length = x.length)
    (hverify : verify frame (sign frame) = true)
    (hsiglen : (sign frame).length = 64)
    (hflen : frame.length = FRAME_SIZE)
    (hch : channel ≠ 0)
    (hse : start ≤ end_) (hend : end_ < 2 ^ 64)
    (hst : start ≤ t) (hte : t ≤ end_)
    (hmrt : ∀ t', mrt = some t' → t' < t) :
    decode_frame C verify channel0Keys
      [{ header := (SubscriptionData.generate C secrets start end_ channel (some device_id)).header
         keys := (SubscriptionData.generate C secrets start end_ channel (some device_id)).keys.map
           fun k => { key := C.dec (Key.for_device device_id secrets) k.key } }]
      (Frame.encode C sign frame t channel secrets) mrt = (Except.ok frame, some t) := by
  have htU : t < 2 ^ 64 := lt_of_le_of_lt hte hend
  have hcount := characterize_range_countP (a := start) (b := end_)
    (show end_ < U64 from hend) t
  rw [if_pos ⟨hst, hte⟩] at hcount
  have hex : ∃ b ∈ characterize_range start end_, coversB b t = true := by
    apply List.countP_pos_iff.mp
    omega
  obtain ⟨blk, hmem, hcov, hfind⟩ :=
    findKey_zip_map (fun blk => { key := Key.for_bitrange blk.1 blk.2 channel secrets }) t _ hex
  obtain ⟨hmi, hdvd, _, hfitb⟩ := characterize_range_mem blk hmem
  set w := MASKS.getD blk.2 0 with hwdef
  have hdiveq : blk.1 / 2 ^ w = t / 2 ^ w := by
    have hc := hcov
    rw [coversB, beq_iff_eq, xor_shiftRight, Nat.xor_eq_zero, Nat.shiftRight_eq_div_pow,
      Nat.shiftRight_eq_div_pow] at hc
    exact hc
  have hand : t &&& (U64 - 2 ^ w) = blk.1 := by
    rw [show U64 = 2 ^ 64 from rfl,
      and_high t w htU (le_trans (MASKS_getD_le blk.2) (by omega)),
      ← hdiveq, Nat.mul_div_cancel' hdvd]
  have hkeys :
      (SubscriptionData.generate C secrets start end_ channel (some device_id)).keys.map
        (fun k =>
          ({ key := C.dec (Key.for_device device_id secrets) k.key } : EncodedSubscriptionKey)) =
      (characterize_range start end_).map
        (fun blk =>
          ({ key := Key.for_bitrange blk.1 blk.2 channel secrets } : EncodedSubscriptionKey)) := by
    simp only [SubscriptionData.generate, List.map_map]
    congr 1
    funext b
    simp [Function.comp, hCinv]
  have hcf : contains_frame
      (SubscriptionData.generate C secrets start end_ channel (some device_id)).header
      (Frame.encode C sign frame t channel secrets).header = true := by
    simp [contains_frame, SubscriptionData.generate, Frame.encode, hst, hte]
  have hkff : key_for_frame
      (SubscriptionData.generate C secrets start end_ channel (some device_id)).header
      (Frame.encode C sign frame t channel secrets).header
      ((SubscriptionData.generate C secrets start end_ channel (some device_id)).keys.map
        fun k => { key := C.dec (Key.for_device device_id secrets) k.key }) =
      some ({ key := Key.for_bitrange blk.1 blk.2 channel secrets }, blk.2) := by
    rw [key_for_frame, if_pos hcf, hkeys]
    rw [zip_map_left] at hfind
    simpa [SubscriptionData.generate, Frame.encode, zip_map_left] using hfind
  have hlookup : findSubscriptionKey (Frame.encode C sign frame t channel secrets).header
      [{ header := (SubscriptionData.generate C secrets start end_ channel (some device_id)).header
         keys := (SubscriptionData.generate C secrets start end_ channel (some device_id)).keys.map
           fun k => { key := C.dec (Key.for_device device_id secrets) k.key } }] =
      some ({ key := Key.for_bitrange blk.1 blk.2 channel secrets }, blk.2) := by
    rw [findSubscriptionKey, hkff]
  have hsize : ¬((Frame.encode C sign frame t channel secrets).header.frame.length ≠ FRAME_SIZE ∨
      (Frame.encode C sign frame t channel secrets).header.signature.length ≠ 64 ∨
      (Frame.encode C sign frame t channel secrets).keys.length ≠ NUM_ENCRYPTED_KEYS) := by
    push_neg
    refine ⟨?_, ?_, ?_⟩
    · rw [show (Frame.encode C sign frame t channel secrets).header.frame =
        C.enc (Key.for_frame t channel secrets) frame from rfl, hClen, hflen]
    · exact hsiglen
    · simp [Frame.encode]
  have hpktkeys : (Frame.encode C sign frame t channel secrets).keys.getD blk.2 [] =
      C.enc (Key.for_bitrange blk.1 blk.2 channel secrets) (Key.for_frame t channel secrets) := by
    rw [show (Frame.encode C sign frame t channel secrets).keys =
      (List.range NUM_ENCRYPTED_KEYS).map fun mask_idx =>
        C.enc (Key.for_bitrange (t &&& (U64 - 2 ^ (MASKS.getD mask_idx 0))) mask_idx channel
          secrets) (Key.for_frame t channel secrets) from rfl]
    rw [range_map_getD _ _ (show blk.2 < NUM_ENCRYPTED_KEYS from hmi), ← hwdef, hand]
  have hfr : (Frame.encode C sign frame t channel secrets).header.frame =
    C.enc (Key.for_frame t channel secrets) frame := rfl
  have hts : (Frame.encode C sign frame t channel secrets).header.timestamp = t := rfl
  have hsg : (Frame.encode C sign frame t channel secrets).header.signature = sign frame := rfl
  have hchpkt : (Frame.encode C sign frame t channel secrets).header.channel ≠ 0 := hch
  have hpast : ((mrt.map fun t' => decide (t ≤ t')).getD false) = false := by
    cases mrt with
    | none => rfl
    | some t' =>
      have := hmrt t' rfl
      simp only [Option.map_some', Option.getD_some, decide_eq_false_iff_not]
      omega
  rw [decode_frame, if_neg hsize, if_pos hchpkt, hlookup]
  simp only [hpktkeys, hCinv, hfr, hts, hsg, hpast, hverify]
  simp

/-- Witness: the round-trip at concrete values (identity cipher,
trivial signature scheme). -/
theorem frame_decode_roundtrip_witness :
    decode_frame ⟨fun _ x => x, fun _ x => x⟩ (fun _ _ => true) []
      [{ header := (SubscriptionData.generate ⟨fun _ x => x, fun _ x => x⟩ [1] 0 100 1
            (some 7)).header
         keys := (SubscriptionData.generate ⟨fun _ x => x, fun _ x => x⟩ [1] 0 100 1
            (some 7)).keys.map
           fun k =>
             { key := BlockCipher.dec ⟨fun _ x => x, fun _ x => x⟩ (Key.for_device 7 [1]) k.key } }]
      (Frame.encode ⟨fun _ x => x, fun _ x => x⟩ (fun _ => List.replicate 64 0)
        (List.replicate 64 65) 12 1 [1]) none =
      (Except.ok (List.replicate 64 65), some 12) :=
  frame_decode_roundtrip ⟨fun _ x => x, fun _ x => x⟩ (fun _ => List.replicate 64 0)
    (fun _ _ => true) [] [1] (List.replicate 64 65) 12 1 0 100 7 none
    (fun _ _ => rfl) (fun _ _ => rfl) rfl (by simp) (by simp [FRAME_SIZE])
    (by omega) (by omega) (by norm_num) (by omega) (by omega)
    (fun t' h => by cases h)

/-! ### Output lengths of the hash primitives -/

theorem compressStep_length {st : List Nat} (kw : Nat × Nat) (h : st.length = 8) :
    (compressStep st kw).length = 8 := by
  rcases st with _ | ⟨a, _ | ⟨b, _ | ⟨c, _ | ⟨d, _ | ⟨e, _ | ⟨f, _ | ⟨g, _ | ⟨h', _ | ⟨i, st⟩⟩⟩⟩⟩⟩⟩⟩⟩ <;>
    simp_all [compressStep]

theorem foldl_compressStep_length (l : List (Nat × Nat)) :
    ∀ st : List Nat, st.length = 8 → (l.foldl compressStep st).length = 8 := by
  induction l with
  | nil => intro st h; exact h
  | cons kw rest ih => intro st h; exact ih _ (compressStep_length kw h)

theorem compress_length {st : List Nat} (block : List Nat) (h : st.length = 8) :
    (compress st block).length = 8 := by
  rw [compress]
  rw [List.length_map, List.length_zip, foldl_compressStep_length _ _ h, h]
  omega

theorem sha256iter_length :
    ∀ (n : Nat) (st words : List Nat), st.length = 8 → (sha256iter n st words).length = 8 := by
  intro n
  induction n with
  | zero => intro st words h; exact h
  | succ m ih => intro st words h; exact ih _ _ (compress_length _ h)

theorem beBytes_length (k n : Nat) : (beBytes k n).length = k := by
  simp [beBytes]

theorem foldr_beBytes_length (st : List Nat) :
    (st.foldr (fun w acc => beBytes 4 w ++ acc) []).length = 4 * st.length := by
  induction st with
  | nil => rfl
  | cons w rest ih => simp [ih, beBytes_length]; omega

theorem sha256_length (msg : List Nat) : (sha256 msg).length = 32 := by
  rw [sha256, foldr_beBytes_length, sha256iter_length _ _ _ (by rfl)]

theorem hmacSha256_length (key msg : List Nat) : (hmacSha256 key msg).length = 32 :=
  sha256_length _

theorem for_bitrange_length (t0 mi ch : Nat) (s : List Nat) :
    (Key.for_bitrange t0 mi ch s).length = 16 := by
  rw [Key.for_bitrange, List.length_take, hmacSha256_length]
  decide

theorem for_device_length (d : Nat) (s : List Nat) : (Key.for_device d s).length = 16 := by
  rw [Key.for_device, List.length_take, hmacSha256_length]
  decide

/-! ### Subscription authentication -/

theorem characterize_range_ne_nil {a b : Nat} (h : a ≤ b) : characterize_range a b ≠ [] := by
  rw [characterize_range, show b + 1 - a = (b - a) + 1 by omega, charAux, if_pos h]
  split <;> simp

/-- C3 (claim refuted, code bug): `ArchivedSubscriptionData::authenticate`
never returns `true` on a generated subscription packet — it panics
(`none`) at the first key, because `copy_from_slice` copies the 16-byte
key into an 8-byte scratch buffer.  (Even absent the panic, the hash is
computed over the still-encrypted key bytes, while `generate` MACs the
plaintext keys.) -/
theorem authenticate_generate_panics (C : BlockCipher) (secrets : List Nat)
    (start end_ channel device_id : Nat) (dk : List Nat)
    (hClen : ∀ k x, (C.enc k x).length = x.length)
    (h : start ≤ end_) :
    authenticate C (SubscriptionData.generate C secrets start end_ channel (some device_id)) dk =
      none := by
  obtain ⟨blk, rest, hcr⟩ := List.exists_cons_of_ne_nil (characterize_range_ne_nil h)
  rw [authenticate]
  simp only [SubscriptionData.generate, hcr, List.map_cons, List.zip_cons_cons]
  rw [authLoop]
  have hlen : (C.enc (Key.for_device device_id secrets)
      (Key.for_bitrange blk.1 blk.2 channel secrets)).length = 16 := by
    rw [hClen, for_bitrange_length]
  simp [copyFromSlice, hlen]

theorem authenticate_generate_panics_witness :
    authenticate ⟨fun _ x => x, fun _ x => x⟩
      (SubscriptionData.generate ⟨fun _ x => x, fun _ x => x⟩ [1] 0 0 1 (some 0))
      (List.replicate 16 0) = none :=
  authenticate_generate_panics ⟨fun _ x => x, fun _ x => x⟩ [1] 0 0 1 0
    (List.replicate 16 0) (fun _ _ => rfl) (by omega)

/-- C10 (claim refuted, code bug): `authenticate` does not run to
completion on packets with a non-empty key list; the 16-byte key copied
by `copy_from_slice` into the function's 8-byte scratch buffer is a
guaranteed panic, modelled as `none`. -/
theorem authenticate_totality_refuted :
    authenticate ⟨fun _ x => x, fun _ x => x⟩
      { header := { start_timestamp := 0, end_timestamp := 0, channel := 1,
                    mac_hash := List.replicate 32 0 }
        keys := [{ key := List.replicate 16 0 }] }
      (List.replicate 16 0) = none := by decide

/-! ### Device-key derivation -/

/-- C8 (claim): `Key::for_device(device_id, S)` is the first 16 bytes
of HMAC-SHA256 keyed with `S` over the 4-byte little-endian device id,
and the result depends on both the device id and the secrets. -/
theorem for_device_spec :
    (∀ device_id secrets, Key.for_device device_id secrets =
      (hmacSha256 secrets (leBytes 4 device_id)).take 16) ∧
    Key.for_device 0 [1] ≠ Key.for_device 1 [1] ∧
    Key.for_device 0 [1] ≠ Key.for_device 0 [2] := by
  refine ⟨fun _ _ => rfl, by decide, by decide⟩

/-! ### Subscribe atomicity -/

/-- C7 (claim): `add_subscription` fails and leaves the flash log and
the in-RAM subscription index unchanged whenever the header's channel
is 0 or the computed MAC differs from the packet's `mac_hash`; nothing
reaches the flash before both checks pass. -/
theorem add_subscription_atomic (C : BlockCipher) (dk : List Nat) (sub : SubscriptionData)
    (fl : Flash)
    (h : sub.header.channel = 0 ∨ computeSubscriptionMac C dk sub ≠ sub.header.mac_hash) :
    (∃ e, (add_subscription C dk sub fl).1 = Except.error e) ∧
      (add_subscription C dk sub fl).2 = fl := by
  rcases h with h0 | hmac
  · rw [add_subscription, if_pos h0]
    exact ⟨⟨_, rfl⟩, rfl⟩
  · by_cases h0 : sub.header.channel = 0
    · rw [add_subscription, if_pos h0]
      exact ⟨⟨_, rfl⟩, rfl⟩
    · rw [add_subscription, if_neg h0, if_pos hmac]
      exact ⟨⟨_, rfl⟩, rfl⟩

theorem add_subscription_atomic_witness :
    (∃ e, (add_subscription ⟨fun _ x => x, fun _ x => x⟩ (List.replicate 16 0)
        { header := { start_timestamp := 0, end_timestamp := 5, channel := 0,
                      mac_hash := List.replicate 32 0 }
          keys := [] }
        { entries := [], subscriptions := [], next_entry_addr := 268828672,
          limit := 268861440 }).1 = Except.error e) ∧
      (add_subscription ⟨fun _ x => x, fun _ x => x⟩ (List.replicate 16 0)
        { header := { start_timestamp := 0, end_timestamp := 5, channel := 0,
                      mac_hash := List.replicate 32 0 }
          keys := [] }
        { entries := [], subscriptions := [], next_entry_addr := 268828672,
          limit := 268861440 }).2 =
        { entries := [], subscriptions := [], next_entry_addr := 268828672,
          limit := 268861440 } :=
  add_subscription_atomic _ _ _ _ (Or.inl rfl)

/-! ### Timestamp high-water mark -/

theorem optLe_refl : ∀ o : Option Nat, optLe o o
  | none => trivial
  | some _ => le_refl _

theorem optLe_trans : ∀ {a b c : Option Nat}, optLe a b → optLe b c → optLe a c
  | none, _, _, _, _ => trivial
  | some _, some _, some _, h1, h2 => le_trans h1 h2

/-- Single-call behaviour of `decode_frame` on `most_recent_timestamp`. -/
theorem decode_frame_timestamp_step (C : BlockCipher) (verify : List Nat → List Nat → Bool)
    (ch0 : List EncodedSubscriptionKey) (subs : List StoredSubscription)
    (pkt : EncodedFramePacket) (mrt : Option Nat) :
    optLe mrt (decode_frame C verify ch0 subs pkt mrt).2 ∧
      (∀ e, (decode_frame C verify ch0 subs pkt mrt).1 = Except.error e →
        (decode_frame C verify ch0 subs pkt mrt).2 = mrt) ∧
      ((decode_frame C verify ch0 subs pkt mrt).2 ≠ mrt →
        ∃ f, (decode_frame C verify ch0 subs pkt mrt).1 = Except.ok f ∧
          verify f pkt.header.signature = true ∧
          (decode_frame C verify ch0 subs pkt mrt).2 = some pkt.header.timestamp) := by
  rw [decode_frame]
  by_cases h1 : pkt.header.frame.length ≠ FRAME_SIZE ∨ pkt.header.signature.length ≠ 64 ∨
      pkt.keys.length ≠ NUM_ENCRYPTED_KEYS
  · rw [if_pos h1]
    exact ⟨optLe_refl mrt, fun _ _ => rfl, fun hne => absurd rfl hne⟩
  · rw [if_neg h1]
    generalize (if pkt.header.channel ≠ 0 then findSubscriptionKey pkt.header subs
      else key_for_frame
        { start_timestamp := 0, end_timestamp := U64 - 1, channel := 0
          mac_hash := List.replicate 32 0 } pkt.header ch0) = key?
    match key? with
    | none => exact ⟨optLe_refl mrt, fun _ _ => rfl, fun hne => absurd rfl hne⟩
    | some (key, mask_idx) =>
      dsimp only
      by_cases hpast : ((mrt.map fun t => decide (pkt.header.timestamp ≤ t)).getD false) = true
      · rw [if_pos hpast]
        exact ⟨optLe_refl mrt, fun _ _ => rfl, fun hne => absurd rfl hne⟩
      · rw [if_neg hpast]
        by_cases hver : verify (C.dec (C.dec key.key (pkt.keys.getD mask_idx []))
            pkt.header.frame) pkt.header.signature = false
        · rw [if_pos hver]
          exact ⟨optLe_refl mrt, fun _ _ => rfl, fun hne => absurd rfl hne⟩
        · rw [if_neg hver]
          refine ⟨?_, ⟨fun e he => absurd he (by simp),
            fun _ => ⟨_, rfl, by rwa [Bool.not_eq_false] at hver, rfl⟩⟩⟩
          cases mrt with
          | none => trivial
          | some t' =>
            simp only [Option.map_some', Option.getD_some, decide_eq_true_eq] at hpast
            exact le_of_not_le hpast

/-- C4 (claim): across any sequence of `decode_frame` calls the
most-recent-timestamp is monotonically non-decreasing; it is assigned
only in a call whose frame signature verified; and every erroring call
leaves it unchanged. -/
theorem timestamp_high_water_mark (C : BlockCipher) (verify : List Nat → List Nat → Bool)
    (ch0 : List EncodedSubscriptionKey) (subs : List StoredSubscription) :
    (∀ pkts mrt, optLe mrt (decodeRun C verify ch0 subs pkts mrt)) ∧
      (∀ pkt mrt e, (decode_frame C verify ch0 subs pkt mrt).1 = Except.error e →
        (decode_frame C verify ch0 subs pkt mrt).2 = mrt) ∧
      (∀ pkt mrt, (decode_frame C verify ch0 subs pkt mrt).2 ≠ mrt →
        ∃ f, (decode_frame C verify ch0 subs pkt mrt).1 = Except.ok f ∧
          verify f pkt.header.signature = true ∧
          (decode_frame C verify ch0 subs pkt mrt).2 = some pkt.header.timestamp) := by
  refine ⟨?_, fun pkt mrt => (decode_frame_timestamp_step C verify ch0 subs pkt mrt).2.1,
    fun pkt mrt => (decode_frame_timestamp_step C verify ch0 subs pkt mrt).2.2⟩
  intro pkts
  induction pkts with
  | nil => intro mrt; exact optLe_refl mrt
  | cons pkt rest ih =>
    intro mrt
    exact optLe_trans (decode_frame_timestamp_step C verify ch0 subs pkt mrt).1 (ih _)

/-- Witness for C4: a concrete erroring call leaves the timestamp
unchanged (and the sequence order holds). -/
theorem timestamp_high_water_mark_witness :
    (decode_frame ⟨fun _ x => x, fun _ x => x⟩ (fun _ _ => true) [] []
      { header := { timestamp := 3, channel := 1, signature := [], frame := [] }, keys := [] }
      (some 9)).2 = some 9 :=
  (timestamp_high_water_mark ⟨fun _ x => x, fun _ x => x⟩ (fun _ _ => true) [] []).2.1
    { header := { timestamp := 3, channel := 1, signature := [], frame := [] }, keys := [] }
    (some 9) "Unexpected frame packet size" (by rfl)

/-! ### Decode error ordering -/

/-- C6 counterexample: with a constant-false signature verifier (the
signature does not verify) and a replayed timestamp (`t = 5 ≤ T* = 5`),
`decode_frame` emits "Frame is from the past", not the
signature-failure error the claim requires. -/
theorem decode_error_order_counterexample :
    (decode_frame ⟨fun _ x => x, fun _ x => x⟩ (fun _ _ => false) []
      [{ header := { start_timestamp := 0, end_timestamp := 10, channel := 1,
                     mac_hash := List.replicate 32 0 }
         keys := List.replicate 5 { key := List.replicate 16 1 } }]
      { header := { timestamp := 5, channel := 1, signature := List.replicate 64 0,
                    frame := List.replicate 64 0 }
        keys := List.replicate 32 (List.replicate 16 0) }
      (some 5)).1 = Except.error "Frame is from the past" ∧
    "Frame is from the past" ≠ "Frame validation failed" :=
  ⟨by rfl, by decide⟩

/-- C6 amended: in the decode pipeline the timestamp-replay check is
performed before RSA signature verification, so whenever a subscription
key is found and `t ≤ T*`, the decoder emits "Frame is from the past"
regardless of whether the signature verifies. -/
theorem decode_replay_checked_first (C : BlockCipher) (verify : List Nat → List Nat → Bool)
    (ch0 : List EncodedSubscriptionKey) (subs : List StoredSubscription)
    (pkt : EncodedFramePacket) (t' : Nat) (kp : EncodedSubscriptionKey × Nat)
    (hsz1 : pkt.header.frame.length = FRAME_SIZE)
    (hsz2 : pkt.header.signature.length = 64)
    (hsz3 : pkt.keys.length = NUM_ENCRYPTED_KEYS)
    (hlk : (if pkt.header.channel ≠ 0 then findSubscriptionKey pkt.header subs
        else key_for_frame
          { start_timestamp := 0, end_timestamp := U64 - 1, channel := 0
            mac_hash := List.replicate 32 0 } pkt.header ch0) = some kp)
    (hpast : pkt.header.timestamp ≤ t') :
    decode_frame C verify ch0 subs pkt (some t') =
      (Except.error "Frame is from the past", some t') := by
  have hsize : ¬(pkt.header.frame.length ≠ FRAME_SIZE ∨ pkt.header.signature.length ≠ 64 ∨
      pkt.keys.length ≠ NUM_ENCRYPTED_KEYS) := by
    push_neg
    exact ⟨hsz1, hsz2, hsz3⟩
  rw [decode_frame, if_neg hsize, hlk]
  obtain ⟨key, mi⟩ := kp
  dsimp only
  rw [if_pos (by simp [hpast])]

theorem decode_replay_checked_first_witness :
    decode_frame ⟨fun _ x => x, fun _ x => x⟩ (fun _ _ => false) []
      [{ header := { start_timestamp := 0, end_timestamp := 10, channel := 1,
                     mac_hash := List.replicate 32 0 }
         keys := List.replicate 5 { key := List.replicate 16 1 } }]
      { header := { timestamp := 7, channel := 1, signature := List.replicate 64 0,
                    frame := List.replicate 64 0 }
        keys := List.replicate 32 (List.replicate 16 0) }
      (some 9) = (Except.error "Frame is from the past", some 9) :=
  decode_replay_checked_first ⟨fun _ x => x, fun _ x => x⟩ (fun _ _ => false) []
    [{ header := { start_timestamp := 0, end_timestamp := 10, channel := 1,
                   mac_hash := List.replicate 32 0 }
       keys := List.replicate 5 { key := List.replicate 16 1 } }]
    { header := { timestamp := 7, channel := 1, signature := List.replicate 64 0,
                  frame := List.replicate 64 0 }
      keys := List.replicate 32 (List.replicate 16 0) }
    9 ({ key := List.replicate 16 1 }, 1) (by rfl) (by rfl) (by rfl) (by rfl) (by decide)

/-! ### ACK pacing -/

/-- One-step/many-step characterisation of the ACK emission: a poll
ACKs exactly the observed `bytes_read` values that are chunk boundaries
and differ from the previously ACKed count. -/
theorem pollSeq_eq (L : Nat) :
    ∀ (obs : List Nat) (last : Nat),
      pollSeq ⟨L, last⟩ obs =
        dedupFrom last ((obs.map fun cnt => L - cnt).filter
          fun br => br % CHUNK_SIZE == 0 || br == L) := by
  intro obs
  induction obs with
  | nil => intro last; rfl
  | cons c rest ih =>
    intro last
    by_cases hc : ((L - c) % CHUNK_SIZE = 0 ∨ L - c = L) ∧ L - c ≠ last
    · have hdma : dma_poll_for_ack ⟨L, last⟩ c = (L - c, true, ⟨L, L - c⟩) := by
        rw [dma_poll_for_ack, if_pos hc]
      have hbB : ((L - c) % CHUNK_SIZE == 0 || (L - c) == L) = true := by
        rcases hc.1 with h | h <;> simp [h]
      rw [pollSeq, hdma]
      dsimp only
      simp only [List.map_cons, List.filter_cons, hbB, if_true]
      rw [dedupFrom, if_pos hc.2, ih]
    · have hdma : dma_poll_for_ack ⟨L, last⟩ c = (L - c, false, ⟨L, last⟩) := by
        rw [dma_poll_for_ack, if_neg hc]
      rw [pollSeq, hdma]
      dsimp only
      simp only [List.map_cons, List.filter_cons]
      by_cases hb : (L - c) % CHUNK_SIZE = 0 ∨ L - c = L
      · have heq : L - c = last := not_ne_iff.mp fun h2 => hc ⟨hb, h2⟩
        have hbB : ((L - c) % CHUNK_SIZE == 0 || (L - c) == L) = true := by
          rcases hb with h | h <;> simp [h]
        simp only [hbB, if_true]
        rw [dedupFrom, if_neg (not_ne_iff.mpr heq), ih]
        simp
      · have hbB : ((L - c) % CHUNK_SIZE == 0 || (L - c) == L) = false := by
          push_neg at hb
          simp [hb.1, hb.2]
        simp only [hbB, Bool.false_eq_true, if_false]
        exact ih last

theorem dedupFrom_of_lt_chain :
    ∀ (l : List Nat) (last : Nat), List.Chain (· < ·) last l → dedupFrom last l = l
  | [], _, _ => rfl
  | x :: xs, last, h => by
    obtain ⟨h1, h2⟩ := List.chain_cons.mp h
    rw [dedupFrom, if_pos (by omega), dedupFrom_of_lt_chain xs x h2]

theorem chain_lt_mul_range' (c : Nat) (hc : 0 < c) :
    ∀ (n s prev : Nat), prev < c * (s + 1) →
      List.Chain (· < ·) prev ((List.range' s n).map fun i => c * (i + 1)) := by
  intro n
  induction n with
  | zero => intro s prev _; exact List.Chain.nil
  | succ m ih =>
    intro s prev h
    rw [List.range'_succ, List.map_cons]
    refine List.Chain.cons h (ih (s + 1) _ ?_)
    have hlt : s + 1 < s + 2 := by omega
    exact (Nat.mul_lt_mul_left hc).mpr hlt

theorem chain_lt_append_singleton :
    ∀ (l : List Nat) (a x : Nat), List.Chain (· < ·) a l → a < x →
      (∀ y ∈ l, y < x) → List.Chain (· < ·) a (l ++ [x])
  | [], a, x, _, hax, _ => List.Chain.cons hax List.Chain.nil
  | b :: bs, a, x, h, _, hlt => by
    obtain ⟨hab, hrest⟩ := List.chain_cons.mp h
    exact List.Chain.cons hab
      (chain_lt_append_singleton bs b x hrest (hlt b (List.mem_cons_self b bs))
        fun y hy => hlt y (List.mem_cons_of_mem b hy))

theorem boundaries_chain (L : Nat) : List.Chain (· < ·) 0 (boundaries L) := by
  rw [boundaries]
  simp only [CHUNK_SIZE]
  rw [show List.range (L / 256) = List.range' 0 (L / 256) from List.range_eq_range' _]
  have hchain := chain_lt_mul_range' 256 (by omega) (L / 256) 0 0 (by omega)
  by_cases hmod : L % 256 = 0
  · rw [if_pos hmod, List.append_nil]
    exact hchain
  · rw [if_neg hmod]
    refine chain_lt_append_singleton _ 0 L hchain (by omega) ?_
    intro y hy
    obtain ⟨i, hi, rfl⟩ := List.mem_map.mp hy
    have hi' := List.mem_range'_1.mp hi
    have h2 : 256 * (L / 256) ≤ L := Nat.mul_div_le L 256
    have h1 : 256 * (i + 1) ≤ 256 * (L / 256) := by omega
    omega

theorem boundaries_le (L : Nat) : ∀ x ∈ boundaries L, x ≤ L := by
  intro x hx
  rw [boundaries] at hx
  simp only [CHUNK_SIZE] at hx
  rcases List.mem_append.mp hx with h | h
  · obtain ⟨i, hi, rfl⟩ := List.mem_map.mp h
    have hi' : i < L / 256 := List.mem_range.mp hi
    have h2 : 256 * (L / 256) ≤ L := Nat.mul_div_le L 256
    omega
  · by_cases hmod : L % 256 = 0
    · rw [if_pos hmod] at h
      simp at h
    · rw [if_neg hmod] at h
      simp at h
      omega

theorem boundaries_are_boundaries (L : Nat) :
    ∀ x ∈ boundaries L, (x % CHUNK_SIZE == 0 || x == L) = true := by
  intro x hx
  rw [boundaries] at hx
  rcases List.mem_append.mp hx with h | h
  · obtain ⟨i, _, rfl⟩ := List.mem_map.mp h
    simp [Nat.mul_mod_right]
  · by_cases hmod : L % CHUNK_SIZE = 0
    · rw [if_pos hmod] at h
      simp at h
    · rw [if_neg hmod] at h
      simp at h
      simp [h]

theorem map_sub_sub (L : Nat) :
    ∀ l : List Nat, (∀ x ∈ l, x ≤ L) → (l.map fun br => L - br).map (fun cnt => L - cnt) = l := by
  intro l
  induction l with
  | nil => intro _; rfl
  | cons x xs ih =>
    intro h
    rw [List.map_cons, List.map_cons, ih fun y hy => h y (List.mem_cons_of_mem x hy)]
    have := h x (List.mem_cons_self x xs)
    congr 1
    omega

/-- C9 amended: a poll writes an ACK exactly when the observed byte
count is a chunk boundary (a multiple of 256, or the whole body length)
that differs from the previously ACKed count — so a boundary whose
exact byte count is never observed between polls is never ACKed, and
when the polls do observe every boundary, each is ACKed exactly once,
in order. -/
theorem dma_ack_pacing :
    (∀ (L last : Nat) (obs : List Nat),
      pollSeq ⟨L, last⟩ obs =
        dedupFrom last ((obs.map fun cnt => L - cnt).filter
          fun br => br % CHUNK_SIZE == 0 || br == L)) ∧
    (∀ L : Nat, 0 < L →
      pollSeq ⟨L, 0⟩ ((boundaries L).map fun br => L - br) = boundaries L) := by
  refine ⟨fun L last obs => pollSeq_eq L obs last, fun L _ => ?_⟩
  rw [pollSeq_eq]
  rw [map_sub_sub L (boundaries L) (boundaries_le L)]
  rw [List.filter_eq_self.mpr (boundaries_are_boundaries L)]
  exact dedupFrom_of_lt_chain _ 0 (boundaries_chain L)

theorem dma_ack_pacing_witness :
    pollSeq ⟨600, 0⟩ ((boundaries 600).map fun br => 600 - br) = boundaries 600 :=
  dma_ack_pacing.2 600 (by decide)

/-- C9 counterexample: with body length 1024, polls observing the DMA
counter at 1024, 424 and 0 remaining bytes (bytes_read 0, 600, 1024)
ACK only the final count; the 256-byte boundary — crossed between the
polls — is never ACKed, although the claim requires an ACK for it. -/
theorem dma_ack_pacing_counterexample :
    pollSeq ⟨1024, 0⟩ [1024, 424, 0] = [1024] ∧ (256 : Nat) ∉ pollSeq ⟨1024, 0⟩ [1024, 424, 0] ∧
      0 < (1024 : Nat) / CHUNK_SIZE := by decide

/-! ### Block-count bound

The decoder ladder is `MASKS[k] = 2*k`, so level-`k` blocks span `4^k`
timestamps.  `widen` picks `min (vAlign a) (uFit n)` — the largest
level at which the cursor is still aligned and the block still fits in
the `n = b + 1 - a` remaining timestamps — and the measure `mu`
strictly decreases with every emitted block. -/

theorem MASKS_getD_two_mul : ∀ k < 32, MASKS.getD k 0 = 2 * k := by decide

theorem two_pow_two_mul (k : Nat) : 2 ^ (2 * k) = 4 ^ k := by
  rw [pow_mul]
  norm_num

theorem vAlign_le (a : Nat) : vAlign a ≤ 31 := Nat.findGreatest_le _

theorem uFit_le (n : Nat) : uFit n ≤ 31 := Nat.findGreatest_le _

theorem vAlign_dvd (a : Nat) : 4 ^ vAlign a ∣ a := by
  unfold vAlign
  have h := Nat.findGreatest_spec (P := fun k => a % 4 ^ k = 0) (n := 31) (m := 0)
    (by omega) (by show a % 4 ^ 0 = 0; rw [pow_zero, Nat.mod_one])
  exact Nat.dvd_of_mod_eq_zero h

theorem le_vAlign {a k : Nat} (hk : k ≤ 31) (h : 4 ^ k ∣ a) : k ≤ vAlign a := by
  unfold vAlign
  exact Nat.le_findGreatest hk (Nat.mod_eq_zero_of_dvd h)

theorem uFit_spec {n : Nat} (hn : 1 ≤ n) : 4 ^ uFit n ≤ n := by
  unfold uFit
  exact Nat.findGreatest_spec (P := fun k => 4 ^ k ≤ n) (n := 31) (m := 0)
    (by omega) (by simpa using hn)

theorem le_uFit {n k : Nat} (hk : k ≤ 31) (h : 4 ^ k ≤ n) : k ≤ uFit n := by
  unfold uFit
  exact Nat.le_findGreatest hk h

theorem uFit_lt {n : Nat} (h : uFit n < 31) : n < 4 ^ (uFit n + 1) := by
  unfold uFit at h ⊢
  have hng := Nat.findGreatest_is_greatest (P := fun k => 4 ^ k ≤ n) (n := 31)
    (k := Nat.findGreatest (fun k => 4 ^ k ≤ n) 31 + 1) (by omega) (by omega)
  simpa using hng

theorem vAlign_not {a : Nat} (h : vAlign a < 31) : ¬(a % 4 ^ (vAlign a + 1) = 0) := by
  unfold vAlign at h ⊢
  exact Nat.findGreatest_is_greatest (P := fun k => a % 4 ^ k = 0) (n := 31)
    (k := Nat.findGreatest (fun k => a % 4 ^ k = 0) 31 + 1) (by omega) (by omega)

theorem uFit_mono {m n : Nat} (h : m ≤ n) : uFit m ≤ uFit n := by
  unfold uFit
  exact Nat.findGreatest_mono (fun k hk => le_trans hk h) (le_refl 31)

theorem div_pow_sub {d n : Nat} (hd : 0 < d) (h : d ≤ n) : (n - d) / d = n / d - 1 := by
  have h0 := Nat.div_add_mod n d
  have h1 : n % d < d := Nat.mod_lt _ hd
  have hq1 : 1 ≤ n / d := (Nat.one_le_div_iff hd).mpr h
  have h3 : d * (n / d - 1) = d * (n / d) - d * 1 := Nat.mul_sub_left_distrib d (n / d) 1
  have h4 : d * 1 ≤ d * (n / d) := Nat.mul_le_mul_left d hq1
  have h2 : n - d = d * (n / d - 1) + n % d := by omega
  rw [h2, Nat.mul_add_div hd, Nat.div_eq_of_lt h1, Nat.add_zero]

/-- The widening loop stops only when the next level fails alignment
or fit. -/
theorem widen_stop (a b : Nat) :
    ∀ fuel idx, MASKS.length - 1 - idx ≤ fuel →
      widen a b idx fuel < MASKS.length - 1 →
      ¬(a &&& (2 ^ (MASKS.getD (widen a b idx fuel + 1) 0) - 1) = 0 ∧
        a ||| (2 ^ (MASKS.getD (widen a b idx fuel + 1) 0) - 1) ≤ b) := by
  intro fuel
  induction fuel with
  | zero =>
    intro idx hf hlt
    rw [widen] at hlt ⊢
    omega
  | succ f ih =>
    intro idx hf hlt
    rw [widen] at hlt ⊢
    by_cases hc : idx < MASKS.length - 1 ∧
        a &&& (2 ^ (MASKS.getD (idx + 1) 0) - 1) = 0 ∧
        a ||| (2 ^ (MASKS.getD (idx + 1) 0) - 1) ≤ b
    · rw [if_pos hc] at hlt ⊢
      exact ih (idx + 1) (by omega) hlt
    · rw [if_neg hc] at hlt ⊢
      intro hcond
      exact hc ⟨hlt, hcond⟩

/-- The chosen widening level is exactly `min (vAlign a) (uFit n)`. -/
theorem widen_min (a b : Nat) (hab : a ≤ b) :
    widen a b 0 MASKS.length = min (vAlign a) (uFit (b + 1 - a)) := by
  obtain ⟨hkl, hdvd, hfit⟩ := widen_spec a b MASKS.length 0
    (by rw [MASKS_length]; omega)
    (by rw [MASKS_getD_zero, pow_zero]; exact Nat.one_dvd a)
    (by rw [MASKS_getD_zero]; simpa using hab)
  set k := widen a b 0 MASKS.length with hkdef
  have hk32 : k < 32 := by rw [← MASKS_length]; exact hkl
  have hw : MASKS.getD k 0 = 2 * k := MASKS_getD_two_mul k hk32
  rw [hw, two_pow_two_mul] at hdvd hfit
  have hor : a ||| (4 ^ k - 1) = a + (4 ^ k - 1) := by
    have := or_low_eq_add (a := a) (2 * k) (by rwa [two_pow_two_mul])
    rwa [two_pow_two_mul] at this
  rw [hor] at hfit
  have hkv : k ≤ vAlign a := le_vAlign (by omega) hdvd
  have hku : k ≤ uFit (b + 1 - a) := le_uFit (by omega) (by omega)
  refine le_antisymm (le_min hkv hku) ?_
  by_contra hcon
  push_neg at hcon
  have hkv' : k + 1 ≤ vAlign a := by omega
  have hku' : k + 1 ≤ uFit (b + 1 - a) := by omega
  have hklt : k < MASKS.length - 1 := by
    have := vAlign_le a
    rw [MASKS_length]
    omega
  have hstop := widen_stop a b MASKS.length 0 (by omega) hklt
  apply hstop
  have hw1 : MASKS.getD (k + 1) 0 = 2 * (k + 1) := MASKS_getD_two_mul (k + 1) (by
    rw [← MASKS_length]
    omega)
  have hdvd1 : 4 ^ (k + 1) ∣ a := dvd_trans (pow_dvd_pow 4 hkv') (vAlign_dvd a)
  have hfit1 : 4 ^ (k + 1) ≤ b + 1 - a :=
    le_trans (pow_le_pow_right (by omega) hku') (uFit_spec (by omega))
  have hdvd1' : 2 ^ (MASKS.getD (k + 1) 0) ∣ a := by
    rw [hw1, two_pow_two_mul]
    exact hdvd1
  constructor
  · rw [Nat.and_pow_two_sub_one_eq_mod]
    exact Nat.mod_eq_zero_of_dvd hdvd1'
  · rw [or_low_eq_add _ hdvd1', hw1, two_pow_two_mul]
    omega

theorem mu_asc {a b : Nat} (h : vAlign a < uFit (b + 1 - a)) :
    mu a b = 6 * uFit (b + 1 - a) - 3 * vAlign a + digAsc a (vAlign a) + 3 := by
  rw [mu, if_pos h]

theorem mu_desc {a b : Nat} (h : ¬(vAlign a < uFit (b + 1 - a))) :
    mu a b = 3 * uFit (b + 1 - a) + (b + 1 - a) / 4 ^ uFit (b + 1 - a) := by
  rw [mu, if_neg h]

theorem mu_pos {a b : Nat} (hab : a ≤ b) : 1 ≤ mu a b := by
  rw [mu]
  split
  · omega
  · have h1 : 1 ≤ (b + 1 - a) / 4 ^ uFit (b + 1 - a) :=
      (Nat.one_le_div_iff (pow_pos (by omega) _)).mpr (uFit_spec (by omega))
    omega

/-- The base-4 digit of the cursor at its alignment level is nonzero
(below the top level). -/
theorem vAlign_digit_ne {a : Nat} (h31 : vAlign a < 31) : a / 4 ^ vAlign a % 4 ≠ 0 := by
  intro h0
  apply vAlign_not h31
  have hdvd := vAlign_dvd a
  have hm : 4 ^ vAlign a * (a / 4 ^ vAlign a) = a := Nat.mul_div_cancel' hdvd
  calc a % 4 ^ (vAlign a + 1)
      = (4 ^ vAlign a * (a / 4 ^ vAlign a)) % (4 ^ vAlign a * 4) := by rw [hm, pow_succ]
    _ = 4 ^ vAlign a * (a / 4 ^ vAlign a % 4) := Nat.mul_mod_mul_left _ _ _
    _ = 0 := by rw [h0, Nat.mul_zero]

/-- Key step: emitting one block strictly decreases the measure. -/
theorem mu_step (b a u v k : Nat) (hbU : b < U64) (hab : a ≤ b)
    (hu : u = uFit (b + 1 - a)) (hv : v = vAlign a) (hk : k = min v u)
    (hnext : a + 4 ^ k ≤ b) :
    mu (a + 4 ^ k) b + 1 ≤ mu a b := by
  obtain ⟨u', hu'⟩ : ∃ x, x = uFit (b + 1 - (a + 4 ^ k)) := ⟨_, rfl⟩
  obtain ⟨v', hv'⟩ : ∃ x, x = vAlign (a + 4 ^ k) := ⟨_, rfl⟩
  have hn1 : 1 ≤ b + 1 - a := by omega
  have hkpow : (0:Nat) < 4 ^ k := pow_pos (by omega) _
  have hn'1 : 1 ≤ b + 1 - (a + 4 ^ k) := by omega
  have hn'eq : b + 1 - (a + 4 ^ k) = (b + 1 - a) - 4 ^ k := by omega
  have hu31 : u ≤ 31 := hu ▸ uFit_le _
  have hv31 : v ≤ 31 := hv ▸ vAlign_le _
  have hu'31 : u' ≤ 31 := hu' ▸ uFit_le _
  have hv'31 : v' ≤ 31 := hv' ▸ vAlign_le _
  have hu'u : u' ≤ u := by
    rw [hu', hu]
    exact uFit_mono (by omega)
  have he'3 : u' < 31 → (b + 1 - (a + 4 ^ k)) / 4 ^ u' ≤ 3 := by
    intro h31
    have hlt := uFit_lt (n := b + 1 - (a + 4 ^ k)) (by omega)
    rw [← hu'] at hlt
    have h4 : (4:Nat) ^ (u' + 1) = 4 * 4 ^ u' := by rw [pow_succ]; ring
    have : b + 1 - (a + 4 ^ k) < 4 * 4 ^ u' := by omega
    have hd := (Nat.div_lt_iff_lt_mul (pow_pos (show (0:Nat) < 4 by omega) u')).mpr
      (by omega : b + 1 - (a + 4 ^ k) < 4 * 4 ^ u')
    omega
  have he'4 : (b + 1 - (a + 4 ^ k)) / 4 ^ u' ≤ 4 := by
    by_cases h31 : u' < 31
    · have := he'3 h31
      omega
    · have hu'eq : u' = 31 := by omega
      have hb4 : b + 1 - (a + 4 ^ k) ≤ 4 * 4 ^ 31 := by
        have h64 : (4:Nat) * 4 ^ 31 = 2 ^ 64 := by norm_num
        have hb64 : b < 2 ^ 64 := hbU
        omega
      rw [hu'eq]
      calc (b + 1 - (a + 4 ^ k)) / 4 ^ 31 ≤ (4 * 4 ^ 31) / 4 ^ 31 :=
            Nat.div_le_div_right hb4
        _ = 4 := Nat.mul_div_cancel 4 (pow_pos (by omega) 31)
  by_cases hcase : v < u
  · -- ascending block at level k = v
    have hkv : k = v := by omega
    have hpkv : (4:Nat) ^ k = 4 ^ v := by rw [hkv]
    have hv31' : v < 31 := by omega
    have hdvd : 4 ^ v ∣ a := hv ▸ vAlign_dvd a
    have hm : 4 ^ v * (a / 4 ^ v) = a := Nat.mul_div_cancel' hdvd
    have hd0 : a / 4 ^ v % 4 ≠ 0 := by
      rw [hv]
      exact vAlign_digit_ne (by omega)
    have hmul : 4 ^ v * (a / 4 ^ v + 1) = 4 ^ v * (a / 4 ^ v) + 4 ^ v := by ring
    have ha'eq : a + 4 ^ k = 4 ^ v * (a / 4 ^ v + 1) := by omega
    have hv'ge : v ≤ v' := by
      rw [hv']
      exact le_vAlign (by omega) ⟨a / 4 ^ v + 1, ha'eq⟩
    have hdiv' : (a + 4 ^ k) / 4 ^ v = a / 4 ^ v + 1 := by
      rw [ha'eq, Nat.mul_div_cancel_left _ (pow_pos (by omega) v)]
    have hμ : mu a b = 6 * u - 3 * v + (4 - a / 4 ^ v % 4) + 3 := by
      rw [mu_asc (by rw [← hu, ← hv]; omega), ← hu, ← hv, digAsc]
    by_cases hd3 : a / 4 ^ v % 4 = 3
    · -- carry: v' ≥ v + 1
      have hv'succ : v + 1 ≤ v' := by
        rw [hv']
        apply le_vAlign (by omega)
        have h4 : 4 ∣ a / 4 ^ v + 1 := by omega
        obtain ⟨q, hq⟩ := h4
        refine ⟨q, ?_⟩
        rw [ha'eq, hq, pow_succ]
        ring
      by_cases hc' : v' < u'
      · have hμ' : mu (a + 4 ^ k) b = 6 * u' - 3 * v' + digAsc (a + 4 ^ k) v' + 3 := by
          rw [mu_asc (by rw [← hu', ← hv']; omega), ← hu', ← hv']
        have hdig' : digAsc (a + 4 ^ k) v' ≤ 3 := by
          have hne := vAlign_digit_ne (a := a + 4 ^ k) (by omega)
          rw [← hv'] at hne
          rw [digAsc]
          omega
        omega
      · have hμ' : mu (a + 4 ^ k) b =
            3 * u' + (b + 1 - (a + 4 ^ k)) / 4 ^ u' := by
          rw [mu_desc (by rw [← hu', ← hv']; omega), ← hu']
        omega
    · -- no carry: v' = v, digit decreases
      have hd12 : a / 4 ^ v % 4 = 1 ∨ a / 4 ^ v % 4 = 2 := by omega
      have hm1 : (a / 4 ^ v + 1) % 4 ≠ 0 := by omega
      have hv'eq : v' = v := by
        refine le_antisymm ?_ hv'ge
        by_contra hgt
        push_neg at hgt
        have hdvd' : 4 ^ (v + 1) ∣ a + 4 ^ k := by
          have := hv' ▸ vAlign_dvd (a + 4 ^ k)
          exact dvd_trans (pow_dvd_pow 4 (by omega)) this
        obtain ⟨q, hq⟩ := hdvd'
        have heqm : a / 4 ^ v + 1 = 4 * q := by
          have h1 : 4 ^ v * (a / 4 ^ v + 1) = 4 ^ v * (4 * q) := by
            rw [← ha'eq, hq, pow_succ]
            ring
          exact Nat.eq_of_mul_eq_mul_left (pow_pos (by omega) v) h1
        omega
      by_cases hc' : v' < u'
      · have hμ' : mu (a + 4 ^ k) b = 6 * u' - 3 * v +
            (4 - (a / 4 ^ v + 1) % 4) + 3 := by
          rw [mu_asc (by rw [← hu', ← hv']; omega), ← hu', ← hv', hv'eq, digAsc, hdiv']
        omega
      · have hμ' : mu (a + 4 ^ k) b =
            3 * u' + (b + 1 - (a + 4 ^ k)) / 4 ^ u' := by
          rw [mu_desc (by rw [← hu', ← hv']; omega), ← hu']
        have hu'v : u' ≤ v := by omega
        have he3 := he'3 (by omega)
        omega
  · -- descending block at level k = u
    have hku : k = u := by omega
    have hpku : (4:Nat) ^ k = 4 ^ u := by rw [hku]
    have hdvdu : 4 ^ u ∣ a := by
      refine dvd_trans (pow_dvd_pow 4 (by omega : u ≤ v)) ?_
      exact hv ▸ vAlign_dvd a
    have hdvdu' : 4 ^ u ∣ a + 4 ^ k := by
      rw [hku]
      exact Nat.dvd_add hdvdu dvd_rfl
    have hv'u : u ≤ v' := by
      rw [hv']
      exact le_vAlign (by omega) hdvdu'
    have hμ : mu a b = 3 * u + (b + 1 - a) / 4 ^ u := by
      rw [mu_desc (by rw [← hu, ← hv]; omega), ← hu]
    have hμ' : mu (a + 4 ^ k) b = 3 * u' + (b + 1 - (a + 4 ^ k)) / 4 ^ u' := by
      rw [mu_desc (by rw [← hu', ← hv']; omega), ← hu']
    have he1 : 1 ≤ (b + 1 - a) / 4 ^ u :=
      (Nat.one_le_div_iff (pow_pos (by omega) u)).mpr (by rw [hu]; exact uFit_spec hn1)
    by_cases hueq : u' = u
    · have hsub : (b + 1 - (a + 4 ^ k)) / 4 ^ u = (b + 1 - a) / 4 ^ u - 1 := by
        rw [hn'eq, hku]
        exact div_pow_sub (pow_pos (by omega) u) (by rw [hu]; exact uFit_spec hn1)
      rw [hμ, hμ', hueq, hsub]
      omega
    · have he3 := he'3 (by omega)
      omega

theorem charAux_gt {b : Nat} : ∀ fuel a, b < a → charAux b fuel a = []
  | 0, _, _ => rfl
  | _ + 1, _, h => by rw [charAux, if_neg (by omega)]

theorem uFit_div_le4 {n : Nat} (hn : n ≤ 2 ^ 64) : n / 4 ^ uFit n ≤ 4 := by
  by_cases h31 : uFit n < 31
  · have hlt := uFit_lt h31
    have h4 : (4:Nat) ^ (uFit n + 1) = 4 * 4 ^ uFit n := by
      rw [pow_succ]
      ring
    have := (Nat.div_lt_iff_lt_mul (pow_pos (by omega) (uFit n))).mpr
      (by omega : n < 4 * 4 ^ uFit n)
    omega
  · have hueq : uFit n = 31 := by
      have := uFit_le n
      omega
    rw [hueq]
    have h64 : (4:Nat) * 4 ^ 31 = 2 ^ 64 := by norm_num
    calc n / 4 ^ 31 ≤ (4 * 4 ^ 31) / 4 ^ 31 := Nat.div_le_div_right (by omega)
      _ = 4 := Nat.mul_div_cancel 4 (pow_pos (by omega) 31)

/-- The number of emitted blocks is bounded by the measure. -/
theorem charAux_len_le_mu {b : Nat} (hbU : b < U64) :
    ∀ fuel a, b + 1 - a ≤ fuel → (charAux b fuel a).length ≤ mu a b := by
  intro fuel
  induction fuel with
  | zero =>
    intro a _
    simp [charAux]
  | succ f ih =>
    intro a hf
    by_cases hab : a ≤ b
    · obtain ⟨hkl, hdvd, hfit⟩ := widen_spec a b MASKS.length 0
        (by rw [MASKS_length]; omega)
        (by rw [MASKS_getD_zero, pow_zero]; exact Nat.one_dvd a)
        (by rw [MASKS_getD_zero]; simpa using hab)
      set k := widen a b 0 MASKS.length with hkdef
      have hk32 : k < 32 := by
        rw [← MASKS_length]
        exact hkl
      have hw : MASKS.getD k 0 = 2 * k := MASKS_getD_two_mul k hk32
      have hor : a ||| (2 ^ (MASKS.getD k 0) - 1) = a + (2 ^ (MASKS.getD k 0) - 1) :=
        or_low_eq_add _ hdvd
      have hpow4 : (2:Nat) ^ (MASKS.getD k 0) = 4 ^ k := by rw [hw, two_pow_two_mul]
      have hkpos : (0:Nat) < 4 ^ k := pow_pos (by omega) _
      have hmin : k = min (vAlign a) (uFit (b + 1 - a)) := by
        rw [hkdef]
        exact widen_min a b hab
      rw [charAux, if_pos hab]
      by_cases hov : (a ||| (2 ^ (MASKS.getD k 0) - 1)) + 1 = U64
      · rw [if_pos hov]
        simpa using mu_pos hab
      · rw [if_neg hov]
        rw [List.length_cons]
        have ha' : (a ||| (2 ^ (MASKS.getD k 0) - 1)) + 1 = a + 4 ^ k := by
          rw [hor, hpow4]
          omega
        rw [ha']
        by_cases hnext : a + 4 ^ k ≤ b
        · have hrec := ih (a + 4 ^ k) (by omega)
          have hstep := mu_step b a (uFit (b + 1 - a)) (vAlign a) k hbU hab rfl rfl hmin hnext
          omega
        · rw [charAux_gt _ _ (by omega)]
          have := mu_pos hab
          simp only [List.length_nil]
          omega
    · rw [charAux, if_neg hab]
      simp

/-- C5 counterexample: on `[1, 2^64 - 2]` the decomposition has 188
blocks, far more than `2 * M = 64`. -/
theorem block_count_counterexample :
    ¬((characterize_range 1 (2 ^ 64 - 2)).length ≤ 2 * MASKS.length) := by decide

/-- C5 amended: for every `a ≤ b` over u64, `characterize_range(a, b)`
returns at most `6 * M` blocks (`M = MASKS.len() = 32`); the claimed
`2 * M` bound does not hold. -/
theorem block_count_le (a b : Nat) (hab : a ≤ b) (hb : b < 2 ^ 64) :
    (characterize_range a b).length ≤ 6 * MASKS.length := by
  have h := charAux_len_le_mu (show b < U64 from hb) _ a (le_refl _)
  refine le_trans h ?_
  rw [MASKS_length]
  by_cases hc : vAlign a < uFit (b + 1 - a)
  · rw [mu_asc hc]
    have h1 := uFit_le (b + 1 - a)
    have h2 : digAsc a (vAlign a) ≤ 3 := by
      have hne := vAlign_digit_ne (a := a) (by omega)
      rw [digAsc]
      omega
    omega
  · rw [mu_desc hc]
    have h1 := uFit_le (b + 1 - a)
    have he4 : (b + 1 - a) / 4 ^ uFit (b + 1 - a) ≤ 4 := uFit_div_le4 (by omega)
    omega

theorem block_count_le_witness :
    (characterize_range 5 100).length ≤ 6 * MASKS.length :=
  block_count_le 5 100 (by omega) (by decide)

end Ectf
